import Mathlib

/-!
# Verification of the biostats interval-partition and merge-zipper core

This development shallowly embeds the core of the `biostats` crate:

* the per-chromosome interval partition and its `aggregate` fold
  (`IntegerIntervalMap::aggregate`, which lives in the external `math`
  crate and is therefore modelled from the specification, section 4.1);
* the heap-based top-K selector (`src/top_k.rs`);
* the correlation observation extractors and value transform
  (`src/track_correlation.rs`);
* the bin-size dispatch of the refined-track writers
  (`src/bed_refinery.rs`, `src/track_common_refinery.rs`);
* the streaming K-way merge zipper (`src/refined_bed_zipper.rs`).

Machine integers (Rust `i64`) are modelled as `Int` (no arithmetic in the
embedded code can overflow the claims' inputs), `f64` values are modelled
as `ℚ` (exact arithmetic), and Rust's `%` on `i64` is `Int.tmod`.
Fallible Rust code returning `Result` is modelled with `Except String`;
a Rust panic is modelled by a dedicated constructor distinct from
returned errors.
-/

namespace Biostats

/-- A closed integer interval `[lo, hi]`, the shallow embedding of the
`math` crate's `I64Interval` (spec section 3: inclusive semantics). -/
structure Iv where
  lo : Int
  hi : Int
deriving DecidableEq, Repr

/-- One `(interval, value)` entry of a partition. -/
abbrev Entry := Iv × ℚ

/-- Modelled from the spec: `Interval::size() = end - start + 1` (section 3),
with the empty sentinel interval having size `0`.  The `size` method lives
in the external `math` crate. -/
def ivSize (iv : Iv) : Int :=
  if iv.lo ≤ iv.hi then iv.hi - iv.lo + 1 else 0

/-- The value recorded at coordinate point `x` by a partition: the value of
the first entry whose interval contains `x`, or `none` when no entry does.
On a well-formed (disjoint) partition the covering entry is unique. -/
def valueAt : List Entry → Int → Option ℚ
  | [], _ => none
  | e :: t, x => if e.1.lo ≤ x ∧ x ≤ e.1.hi then some e.2 else valueAt t x

/-- Strict ordering between partition entries: the earlier interval's end
is strictly below the later interval's start (spec section 3). -/
def EntryRel (e f : Entry) : Prop := e.1.hi < f.1.lo

instance : DecidableRel EntryRel := fun e f => by
  unfold EntryRel; infer_instance

/-- Well-formedness of a partition: every interval is nonempty and the
entries are pairwise strictly ordered (hence disjoint, sorted ascending,
with gaps allowed). -/
def WF (l : List Entry) : Prop :=
  (∀ e ∈ l, e.1.lo ≤ e.1.hi) ∧ l.Pairwise EntryRel

instance : DecidablePred WF := fun l => by
  unfold WF; infer_instance

/-- Modelled from the spec (section 4.1): `IntegerIntervalMap::aggregate`
of the external `math` crate.  Folds interval `niv` with value `v` into the
sorted disjoint partition: every existing entry overlapping `niv` is split
into up to three pieces (left part with the old value, overlap with the sum,
right part with the old value), portions of `niv` covered by no entry become
new entries with value `v`, sort order is preserved and adjacent pieces are
never merged. -/
def aggregate : List Entry → Iv → ℚ → List Entry
  | [], niv, v => [(niv, v)]
  | (iv, w) :: rest, niv, v =>
    if iv.hi < niv.lo then
      (iv, w) :: aggregate rest niv v
    else if niv.hi < iv.lo then
      (niv, v) :: (iv, w) :: rest
    else
      (if niv.lo < iv.lo then [(⟨niv.lo, iv.lo - 1⟩, v)]
       else if iv.lo < niv.lo then [(⟨iv.lo, niv.lo - 1⟩, w)]
       else []) ++
      ((⟨max iv.lo niv.lo, min iv.hi niv.hi⟩, w + v) ::
        (if niv.hi < iv.hi then (⟨niv.hi + 1, iv.hi⟩, w) :: rest
         else if iv.hi < niv.hi then aggregate rest ⟨iv.hi + 1, niv.hi⟩ v
         else rest))

/-- Building a partition from a stream of scored intervals by repeated
`aggregate` into an initially empty partition, as done by
`BedRefinery::new` and `write_common_refined_binned_track`. -/
def buildPartition (ivs : List Entry) : List Entry :=
  ivs.foldl (fun p e => aggregate p e.1 e.2) []

/-- Every entry produced by `aggregate` has its start strictly above any
bound that is strictly below both the new interval's start and every
existing entry's start. -/
lemma aggregate_lt_lo (p : List Entry) (niv : Iv) (v : ℚ) (m : Int)
    (h1 : m < niv.lo) (h2 : ∀ e ∈ p, m < e.1.lo) :
    ∀ e ∈ aggregate p niv v, m < e.1.lo := by
  induction p generalizing niv with
  | nil =>
    intro e he
    simp only [aggregate, List.mem_singleton] at he
    subst he; exact h1
  | cons head rest ih =>
    obtain ⟨iv, w⟩ := head
    have hhead : m < iv.lo := h2 (iv, w) (List.mem_cons_self _ _)
    have hrest : ∀ e ∈ rest, m < e.1.lo := fun e he => h2 e (List.mem_cons_of_mem _ he)
    intro e he
    simp only [aggregate] at he
    split_ifs at he with hA hB hC hD hE hF
    all_goals
      simp only [List.mem_append, List.mem_cons, List.mem_singleton, List.not_mem_nil,
        or_false, false_or, List.nil_append] at he
    all_goals
      casesm* _ ∨ _
    all_goals
      try rename_i he
    all_goals
      first
      | exact hrest e he
      | exact ih niv h1 hrest e he
      | exact ih ⟨iv.hi + 1, niv.hi⟩ (by show m < iv.hi + 1; omega) hrest e he
      | (subst he; simp; omega)

lemma WF_nil : WF [] := ⟨by simp, List.Pairwise.nil⟩

lemma WF_cons_of (e : Entry) (l : List Entry) (h1 : e.1.lo ≤ e.1.hi)
    (h2 : ∀ f ∈ l, e.1.hi < f.1.lo) (h3 : WF l) : WF (e :: l) := by
  refine ⟨?_, ?_⟩
  · intro f hf
    rcases List.mem_cons.mp hf with h | h
    · subst h; exact h1
    · exact h3.1 f h
  · exact List.Pairwise.cons (fun f hf => h2 f hf) h3.2

/-- Well-formedness of the entry list built for the overlap case of
`aggregate`: optional left stub, overlap piece, then a tail lying strictly
to the right of the overlap. -/
lemma WF_overlap_build (iv niv : Iv) (w v : ℚ) (post : List Entry)
    (hvh : iv.lo ≤ iv.hi) (hn : niv.lo ≤ niv.hi)
    (hA : niv.lo ≤ iv.hi) (hB : iv.lo ≤ niv.hi)
    (hpostWF : WF post) (hpostBnd : ∀ f ∈ post, min iv.hi niv.hi < f.1.lo) :
    WF ((if niv.lo < iv.lo then [(⟨niv.lo, iv.lo - 1⟩, v)]
         else if iv.lo < niv.lo then [(⟨iv.lo, niv.lo - 1⟩, w)]
         else []) ++
        ((⟨max iv.lo niv.lo, min iv.hi niv.hi⟩, w + v) :: post)) := by
  have hmid : WF ((⟨max iv.lo niv.lo, min iv.hi niv.hi⟩, w + v) :: post) := by
    refine WF_cons_of _ _ (by show max iv.lo niv.lo ≤ min iv.hi niv.hi; omega) ?_ hpostWF
    intro f hf
    have := hpostBnd f hf
    show min iv.hi niv.hi < f.1.lo
    omega
  split_ifs with hC hF
  · rw [List.singleton_append]
    refine WF_cons_of _ _ (by show niv.lo ≤ iv.lo - 1; omega) ?_ hmid
    intro f hf
    rcases List.mem_cons.mp hf with h | h
    · subst h; show iv.lo - 1 < max iv.lo niv.lo; omega
    · have := hpostBnd f h; show iv.lo - 1 < f.1.lo; omega
  · rw [List.singleton_append]
    refine WF_cons_of _ _ (by show iv.lo ≤ niv.lo - 1; omega) ?_ hmid
    intro f hf
    rcases List.mem_cons.mp hf with h | h
    · subst h; show niv.lo - 1 < max iv.lo niv.lo; omega
    · have := hpostBnd f h; show niv.lo - 1 < f.1.lo; omega
  · rw [List.nil_append]
    exact hmid

/-- The fold `aggregate` preserves the partition invariant: given a well-formed
partition and a nonempty new interval, the result is again a sorted,
pairwise-disjoint partition of nonempty intervals. -/
lemma aggregate_WF : ∀ (p : List Entry) (niv : Iv) (v : ℚ),
    WF p → niv.lo ≤ niv.hi → WF (aggregate p niv v) := by
  intro p
  induction p with
  | nil =>
    intro niv v _ hn
    exact WF_cons_of _ _ hn (by simp) WF_nil
  | cons head rest ih =>
    intro niv v hp hn
    obtain ⟨iv, w⟩ := head
    have hvh : iv.lo ≤ iv.hi := hp.1 _ (List.mem_cons_self _ _)
    have hvr : ∀ e ∈ rest, e.1.lo ≤ e.1.hi := fun e he => hp.1 e (List.mem_cons_of_mem _ he)
    have hhd : ∀ f ∈ rest, iv.hi < f.1.lo := fun f hf => (List.pairwise_cons.mp hp.2).1 f hf
    have hpr : WF rest := ⟨hvr, (List.pairwise_cons.mp hp.2).2⟩
    by_cases hA : iv.hi < niv.lo
    · simp only [aggregate, if_pos hA]
      exact WF_cons_of _ _ hvh (aggregate_lt_lo rest niv v iv.hi hA hhd) (ih niv v hpr hn)
    · by_cases hB : niv.hi < iv.lo
      · simp only [aggregate, if_neg hA, if_pos hB]
        refine WF_cons_of _ _ hn ?_ ⟨hp.1, hp.2⟩
        intro f hf
        rcases List.mem_cons.mp hf with h | h
        · subst h; exact hB
        · have := hhd f h; show niv.hi < f.1.lo; omega
      · simp only [aggregate, if_neg hA, if_neg hB]
        refine WF_overlap_build iv niv w v _ hvh hn (by omega) (by omega) ?_ ?_
        · split_ifs with hD hE
          · refine WF_cons_of _ _ (by show niv.hi + 1 ≤ iv.hi; omega)
              (fun f hf => by have := hhd f hf; show iv.hi < f.1.lo; omega) hpr
          · exact ih ⟨iv.hi + 1, niv.hi⟩ v hpr (by show iv.hi + 1 ≤ niv.hi; omega)
          · exact hpr
        · split_ifs with hD hE
          · intro f hf
            rcases List.mem_cons.mp hf with h | h
            · subst h; show min iv.hi niv.hi < niv.hi + 1; omega
            · have := hhd f h; omega
          · intro f hf
            have := aggregate_lt_lo rest ⟨iv.hi + 1, niv.hi⟩ v iv.hi
              (by show iv.hi < iv.hi + 1; omega) hhd f hf
            omega
          · intro f hf
            have := hhd f hf; omega

lemma WF_cons_parts {e : Entry} {l : List Entry} (h : WF (e :: l)) :
    e.1.lo ≤ e.1.hi ∧ (∀ f ∈ l, e.1.hi < f.1.lo) ∧ WF l := by
  refine ⟨h.1 e (List.mem_cons_self _ _), fun f hf => (List.pairwise_cons.mp h.2).1 f hf,
    fun f hf => h.1 f (List.mem_cons_of_mem _ hf), (List.pairwise_cons.mp h.2).2⟩

lemma valueAt_eq_none_of_lt (l : List Entry) (x : Int)
    (h : ∀ e ∈ l, x < e.1.lo) : valueAt l x = none := by
  induction l with
  | nil => rfl
  | cons e t ih =>
    have he := h e (List.mem_cons_self _ _)
    simp only [valueAt, if_neg (by omega : ¬(e.1.lo ≤ x ∧ x ≤ e.1.hi))]
    exact ih fun f hf => h f (List.mem_cons_of_mem _ hf)

/-- The pointwise contract of `aggregate` (spec section 4.1): points covered
by the new interval have their value increased by `v` (with absent points
starting from the implicit zero baseline), all other points are untouched. -/
lemma valueAt_aggregate : ∀ (p : List Entry) (niv : Iv) (v : ℚ),
    WF p → niv.lo ≤ niv.hi → ∀ x : Int,
    valueAt (aggregate p niv v) x =
      if niv.lo ≤ x ∧ x ≤ niv.hi then some ((valueAt p x).getD 0 + v)
      else valueAt p x := by
  intro p
  induction p with
  | nil =>
    intro niv v _ hn x
    simp only [aggregate, valueAt]
    split_ifs with h1 <;> simp
  | cons head rest ih =>
    intro niv v hp hn x
    obtain ⟨iv, w⟩ := head
    obtain ⟨hvh0, hhd0, hpr⟩ := WF_cons_parts hp
    have hvh : iv.lo ≤ iv.hi := hvh0
    have hhd : ∀ f ∈ rest, iv.hi < f.1.lo := hhd0
    have hrn : ∀ y : Int, y ≤ iv.hi → valueAt rest y = none := fun y hy =>
      valueAt_eq_none_of_lt rest y (fun e he => by have := hhd e he; omega)
    by_cases hA : iv.hi < niv.lo
    · simp only [aggregate, if_pos hA, valueAt]
      rw [ih niv v hpr hn x]
      split_ifs <;> first | rfl | omega
    · by_cases hB : niv.hi < iv.lo
      · simp only [aggregate, if_neg hA, if_pos hB, valueAt]
        split_ifs <;>
          first
          | rfl
          | omega
          | (rw [hrn x (by omega)]; simp)
      · simp only [aggregate, if_neg hA, if_neg hB]
        rcases lt_trichotomy niv.hi iv.hi with hD | hD | hD
        · rcases lt_trichotomy niv.lo iv.lo with hC | hC | hC
          · simp only [if_pos hC, if_pos hD, max_eq_left (by omega : niv.lo ≤ iv.lo),
              min_eq_right (by omega : niv.hi ≤ iv.hi), List.singleton_append, valueAt]
            split_ifs <;> first | rfl | omega | (rw [hrn x (by omega)]; simp)
          · simp only [if_neg (by omega : ¬niv.lo < iv.lo),
              if_neg (by omega : ¬iv.lo < niv.lo), if_pos hD,
              max_eq_left (by omega : niv.lo ≤ iv.lo),
              min_eq_right (by omega : niv.hi ≤ iv.hi), List.nil_append, valueAt]
            split_ifs <;> first | rfl | omega | (rw [hrn x (by omega)]; simp)
          · simp only [if_neg (by omega : ¬niv.lo < iv.lo), if_pos hC, if_pos hD,
              max_eq_right (by omega : iv.lo ≤ niv.lo),
              min_eq_right (by omega : niv.hi ≤ iv.hi), List.singleton_append, valueAt]
            split_ifs <;> first | rfl | omega | (rw [hrn x (by omega)]; simp)
        · rcases lt_trichotomy niv.lo iv.lo with hC | hC | hC
          · simp only [if_pos hC, if_neg (by omega : ¬niv.hi < iv.hi),
              if_neg (by omega : ¬iv.hi < niv.hi),
              max_eq_left (by omega : niv.lo ≤ iv.lo),
              min_eq_right (by omega : niv.hi ≤ iv.hi), List.singleton_append, valueAt]
            split_ifs <;> first | rfl | omega | (rw [hrn x (by omega)]; simp)
          · simp only [if_neg (by omega : ¬niv.lo < iv.lo),
              if_neg (by omega : ¬iv.lo < niv.lo), if_neg (by omega : ¬niv.hi < iv.hi),
              if_neg (by omega : ¬iv.hi < niv.hi),
              max_eq_left (by omega : niv.lo ≤ iv.lo),
              min_eq_right (by omega : niv.hi ≤ iv.hi), List.nil_append, valueAt]
            split_ifs <;> first | rfl | omega | (rw [hrn x (by omega)]; simp)
          · simp only [if_neg (by omega : ¬niv.lo < iv.lo), if_pos hC,
              if_neg (by omega : ¬niv.hi < iv.hi), if_neg (by omega : ¬iv.hi < niv.hi),
              max_eq_right (by omega : iv.lo ≤ niv.lo),
              min_eq_right (by omega : niv.hi ≤ iv.hi), List.singleton_append, valueAt]
            split_ifs <;> first | rfl | omega | (rw [hrn x (by omega)]; simp)
        · have hih : valueAt (aggregate rest ⟨iv.hi + 1, niv.hi⟩ v) x =
              if iv.hi + 1 ≤ x ∧ x ≤ niv.hi then some ((valueAt rest x).getD 0 + v)
              else valueAt rest x :=
            ih ⟨iv.hi + 1, niv.hi⟩ v hpr (by show iv.hi + 1 ≤ niv.hi; omega) x
          rcases lt_trichotomy niv.lo iv.lo with hC | hC | hC
          · simp only [if_pos hC, if_neg (by omega : ¬niv.hi < iv.hi), if_pos hD,
              max_eq_left (by omega : niv.lo ≤ iv.lo),
              min_eq_left (by omega : iv.hi ≤ niv.hi), List.singleton_append, valueAt]
            rw [hih]
            split_ifs <;> first | rfl | omega | (rw [hrn x (by omega)]; simp)
          · simp only [if_neg (by omega : ¬niv.lo < iv.lo),
              if_neg (by omega : ¬iv.lo < niv.lo), if_neg (by omega : ¬niv.hi < iv.hi),
              if_pos hD, max_eq_left (by omega : niv.lo ≤ iv.lo),
              min_eq_left (by omega : iv.hi ≤ niv.hi), List.nil_append, valueAt]
            rw [hih]
            split_ifs <;> first | rfl | omega | (rw [hrn x (by omega)]; simp)
          · simp only [if_neg (by omega : ¬niv.lo < iv.lo), if_pos hC,
              if_neg (by omega : ¬niv.hi < iv.hi), if_pos hD,
              max_eq_right (by omega : iv.lo ≤ niv.lo),
              min_eq_left (by omega : iv.hi ≤ niv.hi), List.singleton_append, valueAt]
            rw [hih]
            split_ifs <;> first | rfl | omega | (rw [hrn x (by omega)]; simp)

/-- Sum of the values of all scored intervals of `ivs` covering point `x`. -/
def sumCover (ivs : List Entry) (x : Int) : ℚ :=
  ((ivs.filter fun e => decide (e.1.lo ≤ x ∧ x ≤ e.1.hi)).map fun e => e.2).sum

/-- The value a stream of scored intervals dictates at point `x`: the sum of
the covering intervals' values when at least one interval covers `x`, and
absent otherwise. -/
def coveredSum (ivs : List Entry) (x : Int) : Option ℚ :=
  if ivs.any fun e => decide (e.1.lo ≤ x ∧ x ≤ e.1.hi) then some (sumCover ivs x)
  else none

lemma sumCover_cons (e : Entry) (ivs : List Entry) (x : Int) :
    sumCover (e :: ivs) x =
      (if e.1.lo ≤ x ∧ x ≤ e.1.hi then e.2 else 0) + sumCover ivs x := by
  simp only [sumCover, List.filter_cons]
  split_ifs with h h2 h3 <;> simp_all

lemma foldAgg_WF : ∀ (ivs p : List Entry), WF p → (∀ e ∈ ivs, e.1.lo ≤ e.1.hi) →
    WF (ivs.foldl (fun q e => aggregate q e.1 e.2) p) := by
  intro ivs
  induction ivs with
  | nil => intro p hp _; exact hp
  | cons e t ih =>
    intro p hp hv
    simp only [List.foldl_cons]
    exact ih _ (aggregate_WF p e.1 e.2 hp (hv e (List.mem_cons_self _ _)))
      (fun f hf => hv f (List.mem_cons_of_mem _ hf))

lemma foldAgg_valueAt : ∀ (ivs p : List Entry), WF p →
    (∀ e ∈ ivs, e.1.lo ≤ e.1.hi) → ∀ x : Int,
    valueAt (ivs.foldl (fun q e => aggregate q e.1 e.2) p) x =
      if (valueAt p x).isSome ∨ ivs.any (fun e => decide (e.1.lo ≤ x ∧ x ≤ e.1.hi))
      then some ((valueAt p x).getD 0 + sumCover ivs x)
      else none := by
  intro ivs
  induction ivs with
  | nil =>
    intro p _ _ x
    simp only [List.foldl_nil, List.any_nil, or_false, sumCover, List.filter_nil,
      List.map_nil, List.sum_nil, add_zero]
    cases h : valueAt p x <;> simp [h]
  | cons e t ih =>
    intro p hp hv x
    have hev : e.1.lo ≤ e.1.hi := hv e (List.mem_cons_self _ _)
    have htv : ∀ f ∈ t, f.1.lo ≤ f.1.hi := fun f hf => hv f (List.mem_cons_of_mem _ hf)
    have hstep := valueAt_aggregate p e.1 e.2 hp hev x
    simp only [List.foldl_cons]
    by_cases hc : e.1.lo ≤ x ∧ x ≤ e.1.hi
    · rw [if_pos hc] at hstep
      have hdec : decide (e.1.lo ≤ x ∧ x ≤ e.1.hi) = true := by simp [hc]
      rw [ih (aggregate p e.1 e.2) (aggregate_WF p e.1 e.2 hp hev) htv x, hstep,
        sumCover_cons, List.any_cons, if_pos hc, hdec]
      simp only [Bool.true_or, Option.isSome_some, Option.getD_some]
      rw [if_pos (Or.inl trivial), if_pos (Or.inr trivial), add_assoc]
    · rw [if_neg hc] at hstep
      have hdec : decide (e.1.lo ≤ x ∧ x ≤ e.1.hi) = false := by simp [hc]
      rw [ih (aggregate p e.1 e.2) (aggregate_WF p e.1 e.2 hp hev) htv x, hstep,
        sumCover_cons, List.any_cons, if_neg hc, hdec, zero_add]
      simp only [Bool.false_or]

/-- All scored intervals of the stream are nonempty (the repo's callers
always aggregate intervals `[start, end - 1]` with `end > start`). -/
def allNonempty (ivs : List Entry) : Prop := ∀ e ∈ ivs, e.1.lo ≤ e.1.hi

instance : DecidablePred allNonempty := fun l => by
  unfold allNonempty; infer_instance

unseal Rat.add in
/-- C2: folding scored intervals into an empty partition via `aggregate`
makes every covered coordinate point carry the sum of the values of the
intervals covering it, uncovered points stay absent; and the partition
built from `[0,4] = 3` then `[2,5] = 2` is exactly
`[0,1] = 3, [2,4] = 5, [5,5] = 2`, in ascending order. -/
theorem aggregate_pointwise_additivity :
    (∀ (ivs : List Entry) (x : Int), allNonempty ivs →
      valueAt (buildPartition ivs) x = coveredSum ivs x) ∧
    buildPartition [(⟨0, 4⟩, 3), (⟨2, 5⟩, 2)] =
      [(⟨0, 1⟩, 3), (⟨2, 4⟩, 5), (⟨5, 5⟩, 2)] := by
  constructor
  · intro ivs x hv
    have := foldAgg_valueAt ivs [] WF_nil hv x
    simp only [valueAt, Option.isSome_none, Bool.false_eq_true, false_or,
      Option.getD_none, zero_add] at this
    exact this
  · decide

/-- C2 witness: the additivity contract applied to the concrete scenario
stream at the point `x = 3`. -/
theorem aggregate_pointwise_additivity_witness :
    allNonempty [(⟨0, 4⟩, 3), (⟨2, 5⟩, 2)] ∧
      valueAt (buildPartition [(⟨0, 4⟩, 3), (⟨2, 5⟩, 2)]) 3 =
        coveredSum [(⟨0, 4⟩, 3), (⟨2, 5⟩, 2)] 3 :=
  ⟨by decide, aggregate_pointwise_additivity.1 [(⟨0, 4⟩, 3), (⟨2, 5⟩, 2)] 3 (by decide)⟩

/-- C3: after any finite sequence of `aggregate` calls starting from the
empty partition, the entries are nonempty intervals, pairwise disjoint and
sorted ascending, every earlier interval's end strictly below every later
interval's start. -/
theorem aggregate_preserves_disjoint_sorted (ivs : List Entry)
    (hv : allNonempty ivs) : WF (buildPartition ivs) :=
  foldAgg_WF ivs [] WF_nil hv

/-- C3 witness: the invariant evaluated on the concrete scenario stream. -/
theorem aggregate_preserves_disjoint_sorted_witness :
    WF (buildPartition [(⟨0, 4⟩, 3), (⟨2, 5⟩, 2)]) :=
  aggregate_preserves_disjoint_sorted [(⟨0, 4⟩, 3), (⟨2, 5⟩, 2)] (by decide)

/-! ## Top-K selector (`src/top_k.rs`, `get_top_k`)

The Rust code feeds the (optionally binned) entry stream of a partition
through a `BinaryHeap<Reverse<HeapItem>>` whose ordering compares values
only, popping the minimum whenever the heap holds more than `k` items, and
finally re-aggregates the surviving items into a fresh
`IntegerIntervalMap`.  The heap is modelled as a list: push is cons and
pop removes the first item attaining the minimal value (which minimal item
the binary heap evicts on ties is unspecified and does not affect the
sizes verified here); the arbitrary `into_iter` drain order is modelled as
list order. -/

/-- First item of the list attaining the minimal value, if any
(the value comparison mirrors `HeapItem`'s `Ord`, which compares `val`
only). -/
def findMinItem : List Entry → Option Entry
  | [] => none
  | e :: t =>
    match findMinItem t with
    | none => some e
    | some f => if f.2 < e.2 then some f else some e

/-- Popping the minimum off the heap (`BinaryHeap::pop` on
`Reverse<HeapItem>` ordering). -/
def heapPop (l : List Entry) : List Entry :=
  match findMinItem l with
  | none => l
  | some y => l.erase y

/-- One loop iteration of `get_top_k`: push the incoming entry, then pop
the minimum if the heap now holds more than `k` items. -/
def heapStep (k : Int) (heap : List Entry) (e : Entry) : List Entry :=
  if ((e :: heap).length : Int) > k then heapPop (e :: heap) else e :: heap

/-- The heap contents after feeding the whole entry stream. -/
def heapFold (k : Int) (entries : List Entry) : List Entry :=
  entries.foldl (heapStep k) []

/-- Function `get_top_k` of `src/top_k.rs` on an entry stream: bounded min-heap
selection followed by `aggregate` of each surviving item into a fresh
partition. -/
def getTopK (entries : List Entry) (k : Int) : List Entry :=
  (heapFold k entries).foldl (fun q e => aggregate q e.1 e.2) []

/-- Disjointness of two entries' intervals. -/
def IvD (e f : Entry) : Prop := e.1.hi < f.1.lo ∨ f.1.hi < e.1.lo

instance : DecidableRel IvD := fun e f => by
  unfold IvD; infer_instance

lemma IvD_symm {e f : Entry} (h : IvD e f) : IvD f e := h.symm

lemma findMinItem_mem : ∀ (l : List Entry) (y : Entry), findMinItem l = some y → y ∈ l := by
  intro l
  induction l with
  | nil => intro y h; simp [findMinItem] at h
  | cons e t ih =>
    intro y h
    cases hf : findMinItem t with
    | none =>
      simp only [findMinItem, hf, Option.some.injEq] at h
      subst h; exact List.mem_cons_self _ _
    | some f =>
      simp only [findMinItem, hf] at h
      split_ifs at h with hlt
      · simp only [Option.some.injEq] at h
        exact List.mem_cons_of_mem _ (h ▸ ih f hf)
      · simp only [Option.some.injEq] at h
        subst h; exact List.mem_cons_self _ _

lemma findMinItem_ne_none : ∀ (l : List Entry), l ≠ [] → ∃ y, findMinItem l = some y := by
  intro l hl
  cases l with
  | nil => exact absurd rfl hl
  | cons e t =>
    simp only [findMinItem]
    cases findMinItem t with
    | none => exact ⟨e, rfl⟩
    | some f =>
      by_cases hlt : f.2 < e.2
      · exact ⟨f, by simp [hlt]⟩
      · exact ⟨e, by simp [hlt]⟩

lemma heapPop_length (l : List Entry) (hl : l ≠ []) :
    (heapPop l).length = l.length - 1 := by
  obtain ⟨y, hy⟩ := findMinItem_ne_none l hl
  simp only [heapPop, hy]
  exact List.length_erase_of_mem (findMinItem_mem l y hy)

lemma heapPop_sublist (l : List Entry) : List.Sublist (heapPop l) l := by
  unfold heapPop
  cases findMinItem l with
  | none => exact List.Sublist.refl l
  | some y => exact List.erase_sublist y l

lemma heapStep_sublist (k : Int) (heap : List Entry) (e : Entry) :
    List.Sublist (heapStep k heap e) (e :: heap) := by
  unfold heapStep
  split_ifs
  · exact heapPop_sublist (e :: heap)
  · exact List.Sublist.refl _

lemma heapStep_length (k : Int) (heap : List Entry) (e : Entry)
    (hb : (heap.length : Int) ≤ k) :
    ((heapStep k heap e).length : Int) = min k ((heap.length : Int) + 1) := by
  unfold heapStep
  split_ifs with h
  · rw [heapPop_length (e :: heap) (by simp)]
    simp only [List.length_cons] at h ⊢
    omega
  · simp only [List.length_cons] at h ⊢
    omega

lemma heapFold_length_aux (k : Int) (hk : 0 ≤ k) :
    ∀ (es heap : List Entry), (heap.length : Int) ≤ k →
    ((es.foldl (heapStep k) heap).length : Int) =
      min k ((heap.length : Int) + es.length) := by
  intro es
  induction es with
  | nil =>
    intro heap hb
    simp only [List.foldl_nil, List.length_nil]
    omega
  | cons e t ih =>
    intro heap hb
    have hstep := heapStep_length k heap e hb
    simp only [List.foldl_cons, List.length_cons]
    rw [ih (heapStep k heap e) (by omega)]
    omega

/-- The final heap size is `min k n` for a stream of `n` entries. -/
lemma heapFold_length (k : Int) (hk : 0 ≤ k) (entries : List Entry) :
    ((heapFold k entries).length : Int) = min k (entries.length : Int) := by
  have := heapFold_length_aux k hk entries [] (by simpa using hk)
  simpa [heapFold] using this

lemma heapFold_inv (k : Int) :
    ∀ (es heap : List Entry),
    (∀ x ∈ heap, x.1.lo ≤ x.1.hi) → heap.Pairwise IvD →
    (∀ x ∈ heap, ∀ y ∈ es, IvD x y) →
    (∀ x ∈ es, x.1.lo ≤ x.1.hi) → es.Pairwise IvD →
    (∀ x ∈ es.foldl (heapStep k) heap, x.1.lo ≤ x.1.hi) ∧
      (es.foldl (heapStep k) heap).Pairwise IvD := by
  intro es
  induction es with
  | nil =>
    intro heap h1 h2 _ _ _
    exact ⟨h1, h2⟩
  | cons e t ih =>
    intro heap h1 h2 hcross hv hp
    have hsub := heapStep_sublist k heap e
    have hmem : ∀ x ∈ heapStep k heap e, x ∈ e :: heap := fun x hx => hsub.subset hx
    simp only [List.foldl_cons]
    refine ih (heapStep k heap e) ?_ ?_ ?_
      (fun x hx => hv x (List.mem_cons_of_mem _ hx)) (List.pairwise_cons.mp hp).2
    · intro x hx
      rcases List.mem_cons.mp (hmem x hx) with h | h
      · subst h; exact hv x (List.mem_cons_self _ _)
      · exact h1 x h
    · refine List.Pairwise.sublist hsub (List.Pairwise.cons ?_ h2)
      intro x hx
      exact IvD_symm (hcross x hx e (List.mem_cons_self _ _))
    · intro x hx y hy
      rcases List.mem_cons.mp (hmem x hx) with h | h
      · subst h; exact (List.pairwise_cons.mp hp).1 y hy
      · exact hcross x h y (List.mem_cons_of_mem _ hy)

lemma valueAt_isSome_iff : ∀ (l : List Entry) (x : Int),
    (valueAt l x).isSome ↔ ∃ e ∈ l, e.1.lo ≤ x ∧ x ≤ e.1.hi := by
  intro l x
  induction l with
  | nil => simp [valueAt]
  | cons e t ih =>
    simp only [valueAt]
    split_ifs with h
    · simp only [Option.isSome_some, true_iff]
      exact ⟨e, List.mem_cons_self _ _, h⟩
    · rw [ih]
      constructor
      · rintro ⟨f, hf, hc⟩
        exact ⟨f, List.mem_cons_of_mem _ hf, hc⟩
      · rintro ⟨f, hf, hc⟩
        rcases List.mem_cons.mp hf with hh | hh
        · subst hh; exact absurd hc h
        · exact ⟨f, hh, hc⟩

lemma aggregate_length_of_disjoint : ∀ (p : List Entry) (niv : Iv) (v : ℚ),
    (∀ e ∈ p, e.1.hi < niv.lo ∨ niv.hi < e.1.lo) →
    (aggregate p niv v).length = p.length + 1 := by
  intro p
  induction p with
  | nil => intro niv v _; rfl
  | cons head rest ih =>
    intro niv v hd
    obtain ⟨iv, w⟩ := head
    have hh : iv.hi < niv.lo ∨ niv.hi < iv.lo := hd (iv, w) (List.mem_cons_self _ _)
    have hr : ∀ e ∈ rest, e.1.hi < niv.lo ∨ niv.hi < e.1.lo :=
      fun e he => hd e (List.mem_cons_of_mem _ he)
    by_cases hA : iv.hi < niv.lo
    · simp only [aggregate, if_pos hA, List.length_cons, ih niv v hr]
    · have hh2 : niv.hi < iv.lo := by
        rcases hh with h | h
        · exact absurd h hA
        · exact h
      simp only [aggregate, if_neg hA, if_pos hh2, List.length_cons]

lemma foldAgg_length_of_disjoint : ∀ (items p : List Entry), WF p →
    (∀ e ∈ items, e.1.lo ≤ e.1.hi) → items.Pairwise IvD →
    (∀ e ∈ items, ∀ x : Int, e.1.lo ≤ x → x ≤ e.1.hi → valueAt p x = none) →
    (items.foldl (fun q e => aggregate q e.1 e.2) p).length =
      p.length + items.length := by
  intro items
  induction items with
  | nil => intro p _ _ _ _; simp
  | cons e t ih =>
    intro p hp hv hpair hnone
    have hev : e.1.lo ≤ e.1.hi := hv e (List.mem_cons_self _ _)
    have hdisj : ∀ f ∈ p, f.1.hi < e.1.lo ∨ e.1.hi < f.1.lo := by
      intro f hf
      by_contra hcon
      push_neg at hcon
      have hfv : f.1.lo ≤ f.1.hi := hp.1 f hf
      have hnone1 : valueAt p (max f.1.lo e.1.lo) = none :=
        hnone e (List.mem_cons_self _ _) _ (by omega) (by omega)
      have hsome : (valueAt p (max f.1.lo e.1.lo)).isSome :=
        (valueAt_isSome_iff p _).mpr ⟨f, hf, by omega, by omega⟩
      rw [hnone1] at hsome
      simp at hsome
    simp only [List.foldl_cons]
    rw [ih (aggregate p e.1 e.2) (aggregate_WF p e.1 e.2 hp hev)
      (fun f hf => hv f (List.mem_cons_of_mem _ hf)) (List.pairwise_cons.mp hpair).2 ?_,
      aggregate_length_of_disjoint p e.1 e.2 hdisj, List.length_cons]
    · omega
    · intro f hf x hx1 hx2
      have hfd : IvD e f := (List.pairwise_cons.mp hpair).1 f hf
      have := valueAt_aggregate p e.1 e.2 hp hev x
      rw [if_neg (by unfold IvD at hfd; omega)] at this
      rw [this]
      exact hnone f (List.mem_cons_of_mem _ hf) x hx1 hx2

/-- C8: top-K selection on a partition's (optionally pre-binned) entry
stream returns a partition with exactly `min k n` entries, where `n` is
the number of entries pushed onto the bounded min-heap. -/
theorem top_k_size_bound (entries : List Entry) (k : Int) (hk : 0 ≤ k)
    (hv : allNonempty entries) (hd : entries.Pairwise IvD) :
    ((getTopK entries k).length : Int) = min k (entries.length : Int) := by
  have hinv := heapFold_inv k entries [] (by simp) List.Pairwise.nil (by simp) hv hd
  have hlen := heapFold_length k hk entries
  have hagg := foldAgg_length_of_disjoint (heapFold k entries) [] WF_nil hinv.1 hinv.2
    (fun e _ x _ _ => rfl)
  unfold getTopK
  rw [hagg]
  simpa using hlen

/-- C8 witness: two disjoint single-interval entries with `k = 1` produce
a one-entry partition. -/
theorem top_k_size_bound_witness :
    (0 : Int) ≤ 1 ∧
      ((getTopK ([(⟨0, 4⟩, 3), (⟨10, 12⟩, 5)] : List Entry) 1).length : Int) =
        min 1 ((([(⟨0, 4⟩, 3), (⟨10, 12⟩, 5)] : List Entry).length : Nat) : Int) :=
  ⟨by decide, top_k_size_bound [(⟨0, 4⟩, 3), (⟨10, 12⟩, 5)] 1 (by decide)
    (by decide) (by decide)⟩

/-! ## Correlation observation extractors (`src/track_correlation.rs`) -/

/-- The value transform of `src/track_correlation.rs` (`ValueTransform`):
identity, or thresholding with parameter `t`. -/
inductive ValueTransform where
  | identity : ValueTransform
  | thresholding : ℚ → ValueTransform

/-- Function `apply_transform` of `src/track_correlation.rs`: the identity leaves
the value unchanged; `Thresholding(t)` computes the per-base average
`value / interval.size()`, clamps that average to `±t`, and scales back by
the interval size. -/
def applyTransform (interval : Iv) (value : ℚ) (transform : ValueTransform) : ℚ :=
  match transform with
  | .identity => value
  | .thresholding t =>
    let len : ℚ := (ivSize interval : ℚ)
    let avg := value / len
    if avg > t then t * len
    else if avg < -t then -t * len
    else value

/-- Macro `binned_extractor` of `src/track_correlation.rs`: observation
`(v1, v2, 1 / interval.size())` with missing values defaulted to zero and
the transform applied to each value. -/
def binnedExtractor (t : ValueTransform) (x : Iv × (Option ℚ × Option ℚ)) : ℚ × ℚ × ℚ :=
  (applyTransform x.1 (x.2.1.getD 0) t, applyTransform x.1 (x.2.2.getD 0) t,
    1 / (ivSize x.1 : ℚ))

/-- Macro `non_binned_extractor` of `src/track_correlation.rs`: observation
`(v1, v2, interval.size())`. -/
def nonBinnedExtractor (t : ValueTransform) (x : Iv × (Option ℚ × Option ℚ)) : ℚ × ℚ × ℚ :=
  (applyTransform x.1 (x.2.1.getD 0) t, applyTransform x.1 (x.2.2.getD 0) t,
    (ivSize x.1 : ℚ))

/-- Modelled from the spec: every interval of the binned common-refined
value-pair stream is a fixed-width, zero-aligned bin
`[k * bin_size, (k + 1) * bin_size - 1]` (section 4.3), and the common
refinement of two streams binned on the same grid only emits whole bins
(section 4.2); the binning and refinement iterators live in the external
`math` crate. -/
def IsFullBin (bs : Int) (iv : Iv) : Prop :=
  ∃ k : Int, iv.lo = k * bs ∧ iv.hi = (k + 1) * bs - 1

lemma ivSize_of_fullBin (bs : Int) (hbs : 0 < bs) (iv : Iv) (h : IsFullBin bs iv) :
    ivSize iv = bs := by
  obtain ⟨k, h1, h2⟩ := h
  have hx : (k + 1) * bs = k * bs + bs := by ring
  unfold ivSize
  rw [h1, h2, hx, if_pos (by linarith)]
  ring

/-- C6: on a binned common-refined value-pair stream (whose intervals are
all full bins of width `bin_size`), every observation produced by
`binned_extractor` carries the same weight `1 / bin_size` as every other
observation, while `non_binned_extractor` weights each observation by its
interval's size. -/
theorem correlation_observation_weights (bs : Int) (hbs : 0 < bs)
    (t : ValueTransform) (stream : List (Iv × (Option ℚ × Option ℚ)))
    (hbins : ∀ e ∈ stream, IsFullBin bs e.1) :
    (∀ e1 ∈ stream, ∀ e2 ∈ stream,
      (binnedExtractor t e1).2.2 = (binnedExtractor t e2).2.2) ∧
    (∀ e ∈ stream, (binnedExtractor t e).2.2 = 1 / (bs : ℚ)) ∧
    (∀ e : Iv × (Option ℚ × Option ℚ),
      (nonBinnedExtractor t e).2.2 = (ivSize e.1 : ℚ)) := by
  have huni : ∀ e ∈ stream, (binnedExtractor t e).2.2 = 1 / (bs : ℚ) := by
    intro e he
    show 1 / ((ivSize e.1 : Int) : ℚ) = 1 / (bs : ℚ)
    rw [ivSize_of_fullBin bs hbs e.1 (hbins e he)]
  exact ⟨fun e1 h1 e2 h2 => by rw [huni e1 h1, huni e2 h2], huni, fun e => rfl⟩

/-- C6 witness: a one-bin stream with `bin_size = 50`. -/
theorem correlation_observation_weights_witness :
    (∀ e1 ∈ ([(⟨0, 49⟩, (some 1, none))] : List (Iv × (Option ℚ × Option ℚ))),
      ∀ e2 ∈ ([(⟨0, 49⟩, (some 1, none))] : List (Iv × (Option ℚ × Option ℚ))),
      (binnedExtractor ValueTransform.identity e1).2.2 =
        (binnedExtractor ValueTransform.identity e2).2.2) ∧
    (∀ e ∈ ([(⟨0, 49⟩, (some 1, none))] : List (Iv × (Option ℚ × Option ℚ))),
      (binnedExtractor ValueTransform.identity e).2.2 = 1 / ((50 : Int) : ℚ)) ∧
    (∀ e : Iv × (Option ℚ × Option ℚ),
      (nonBinnedExtractor ValueTransform.identity e).2.2 = (ivSize e.1 : ℚ)) :=
  correlation_observation_weights 50 (by decide) ValueTransform.identity
    [(⟨0, 49⟩, (some 1, none))]
    (by
      intro e he
      simp only [List.mem_singleton] at he
      subst he
      exact ⟨0, by decide, by decide⟩)

unseal Rat.mul Rat.inv in
/-- C7 counterexample: on the two-point interval `[0, 1]` with value `3`
and threshold `1`, `apply_transform` returns `2`, not the symmetric clamp
`max (-1) (min 1 3) = 1` of the value to `[-1, 1]`. -/
theorem apply_transform_clamp_counterexample :
    applyTransform ⟨0, 1⟩ 3 (ValueTransform.thresholding 1) = 2 ∧
    applyTransform ⟨0, 1⟩ 3 (ValueTransform.thresholding 1) ≠
      max (-1 : ℚ) (min 1 3) := by
  constructor <;> decide

/-- C7 (amended): `Thresholding(t)` clamps the per-base average
`value / size` to `[-t, t]` and rescales by the interval size; on
single-point intervals this coincides with the symmetric clamp of the
value itself to `[-t, t]`. -/
theorem apply_transform_scaled_clamp (iv : Iv) (v t : ℚ) (ht : 0 < t)
    (hiv : iv.lo ≤ iv.hi) :
    applyTransform iv v (ValueTransform.thresholding t) =
      (ivSize iv : ℚ) * max (-t) (min t (v / (ivSize iv : ℚ))) ∧
    (ivSize iv = 1 →
      applyTransform iv v (ValueTransform.thresholding t) = max (-t) (min t v)) := by
  have hpos : (0 : Int) < ivSize iv := by
    unfold ivSize; rw [if_pos hiv]; omega
  have hlen : (0 : ℚ) < (ivSize iv : ℚ) := by exact_mod_cast hpos
  have hne : ((ivSize iv : ℚ)) ≠ 0 := ne_of_gt hlen
  have hmain : applyTransform iv v (ValueTransform.thresholding t) =
      (ivSize iv : ℚ) * max (-t) (min t (v / (ivSize iv : ℚ))) := by
    show (if v / (ivSize iv : ℚ) > t then t * (ivSize iv : ℚ)
      else if v / (ivSize iv : ℚ) < -t then -t * (ivSize iv : ℚ)
      else v) = _
    split_ifs with h1 h2
    · rw [min_eq_left (le_of_lt h1), max_eq_right (by linarith), mul_comm]
    · rw [min_eq_right (by linarith), max_eq_left (le_of_lt h2), mul_comm]
    · rw [min_eq_right (by linarith), max_eq_right (by linarith), mul_comm,
        div_mul_cancel₀ v hne]
  refine ⟨hmain, fun h1 => ?_⟩
  rw [hmain, h1]
  push_cast
  rw [div_one, one_mul]

/-- C7 witness for the amended statement: the scaled clamp evaluated on
the counterexample input. -/
theorem apply_transform_scaled_clamp_witness :
    applyTransform ⟨0, 1⟩ 3 (ValueTransform.thresholding 1) =
      (ivSize ⟨0, 1⟩ : ℚ) * max (-1) (min 1 (3 / (ivSize ⟨0, 1⟩ : ℚ))) ∧
    (ivSize ⟨0, 1⟩ = 1 →
      applyTransform ⟨0, 1⟩ 3 (ValueTransform.thresholding 1) = max (-1) (min 1 3)) :=
  apply_transform_scaled_clamp ⟨0, 1⟩ 3 1 (by decide) (by decide)

/-! ## The bin-size dispatch of the refined-track writers
(`src/bed_refinery.rs` `write_refined_bed`,
`src/track_common_refinery.rs` `write_common_refined_binned_track`) -/

/-- The `bin_size` dispatch shared by `write_refined_bed` and
`write_common_refined_binned_track`: with `bin_size == 0` the partition's
own entry iterator is used unchanged, otherwise the stream is fed through
`into_binned_interval_iter` of the external `math` crate, abstracted here
as the `binner` parameter. -/
def getIntervalValueSeq (binner : Int → List Entry → List Entry)
    (binSize : Int) (entries : List Entry) : List Entry :=
  if binSize = 0 then entries else binner binSize entries

/-- The per-chromosome write loop: every nonempty interval of the chosen
stream is written as a line `(start, end_exclusive = hi + 1, value)`;
empty sentinel intervals are skipped. -/
def writeChromLines (binner : Int → List Entry → List Entry)
    (binSize : Int) (entries : List Entry) : List (Int × Int × ℚ) :=
  ((getIntervalValueSeq binner binSize entries).filter
      fun e => decide (e.1.lo ≤ e.1.hi)).map
    fun e => (e.1.lo, e.1.hi + 1, e.2)

/-- C9: with `bin_size = 0` the binning transform is a pass-through — the
emitted entry sequence is exactly the partition's entries, unchanged and
in order, regardless of the binning iterator, and the written lines are
exactly the partition's entries rendered with exclusive ends. -/
theorem bin_size_zero_passthrough (binner : Int → List Entry → List Entry)
    (entries : List Entry) :
    getIntervalValueSeq binner 0 entries = entries ∧
    (allNonempty entries →
      writeChromLines binner 0 entries =
        entries.map fun e => (e.1.lo, e.1.hi + 1, e.2)) := by
  refine ⟨rfl, fun hv => ?_⟩
  unfold writeChromLines getIntervalValueSeq
  rw [if_pos rfl, List.filter_eq_self.mpr fun e he => by
    simpa using hv e he]

/-- C9 witness: pass-through on a concrete two-entry partition with a
binner that would discard everything. -/
theorem bin_size_zero_passthrough_witness :
    getIntervalValueSeq (fun _ _ => []) 0 ([(⟨0, 4⟩, 3), (⟨7, 9⟩, 5)] : List Entry) =
      [(⟨0, 4⟩, 3), (⟨7, 9⟩, 5)] ∧
    (allNonempty ([(⟨0, 4⟩, 3), (⟨7, 9⟩, 5)] : List Entry) →
      writeChromLines (fun _ _ => []) 0 [(⟨0, 4⟩, 3), (⟨7, 9⟩, 5)] =
        ([(⟨0, 4⟩, 3), (⟨7, 9⟩, 5)] : List Entry).map
          fun e => (e.1.lo, e.1.hi + 1, e.2)) :=
  bin_size_zero_passthrough (fun _ _ => []) [(⟨0, 4⟩, 3), (⟨7, 9⟩, 5)]

/-! ## Streaming K-way merge zipper (`src/refined_bed_zipper.rs`)

Each source file is modelled as the list of its parsed records.  A
`BedReserve` holds the records not yet read, the current record and the
set of chromosomes already left behind (`HashSet<Chrom>` modelled as a
list, only membership is used).  `BedReserve::advance` returns
`Result<_, String>`, modelled as `Except String`; the iterator's `next`
unwraps that result with `.expect(..)`, so a violation detected while
advancing aborts the process — modelled by the distinct `panicked`
outcome, as opposed to an error value returned to the caller. -/

/-- One parsed line `(chrom, start, end_exclusive, optional score)` of a
refined BED source. -/
structure BedRecord where
  chrom : String
  start : Int
  endEx : Int
  score : Option ℚ
deriving DecidableEq, Repr

/-- Strict byte-lexicographic comparison of character lists, the model of
Rust's `Ord for String` (on UTF-8 strings, byte order coincides with
code-point order). -/
def charListLt : List Char → List Char → Bool
  | [], [] => false
  | [], _ :: _ => true
  | _ :: _, [] => false
  | x :: xs, y :: ys =>
    if x.toNat < y.toNat then true
    else if y.toNat < x.toNat then false
    else charListLt xs ys

/-- Rust's `String` comparison `a < b`. -/
def chromLt (a b : String) : Bool := charListLt a.data b.data

/-- Minimum of a list of chromosome names under the lexicographic order
(`Iterator::min`), `none` when empty. -/
def chromMin? : List String → Option String
  | [] => none
  | a :: as =>
    match chromMin? as with
    | none => some a
    | some m => some (if chromLt m a then m else a)

/-- The per-source read cursor (`BedReserve`). -/
structure BedReserve where
  upcoming : List BedRecord
  current : Option BedRecord
  pastChroms : List String
deriving DecidableEq, Repr

/-- Constructor `BedReserve::new`: reads the first record of the source — without any
length, alignment or ordering validation — as the current record. -/
def BedReserve.new (lines : List BedRecord) : BedReserve :=
  { upcoming := lines.tail, current := lines.head?, pastChroms := [] }

/-- Method `BedReserve::advance`: reads the next record, enforcing
non-interleaving of chromosomes, the record length, the alignment, and the
sort order relative to the current record; on success the record becomes
current (recording the previous chromosome as past when it changed), on
source exhaustion the current chromosome moves into the past set. -/
def BedReserve.advance (r : BedReserve) (alignment intervalLength : Int) :
    Except String BedReserve :=
  match r.upcoming with
  | [] =>
    let past :=
      match r.current with
      | none => r.pastChroms
      | some old => old.chrom :: r.pastChroms
    Except.ok { upcoming := [], current := none, pastChroms := past }
  | line :: rest =>
    if line.chrom ∈ r.pastChroms then
      Except.error "different chromosomes cannot interleave"
    else if line.endEx - line.start ≠ intervalLength then
      Except.error ""
    else if line.start.tmod intervalLength ≠ alignment then
      Except.error ""
    else
      match r.current with
      | none =>
        Except.ok { upcoming := rest, current := some line, pastChroms := r.pastChroms }
      | some old =>
        if old.chrom = line.chrom then
          if line.start < old.endEx then
            Except.error "the intervals must be sorted in increasing order"
          else
            Except.ok { upcoming := rest, current := some line,
                        pastChroms := r.pastChroms }
        else
          if chromLt line.chrom old.chrom then
            Except.error "the chromosomes must be sorted in increasing order"
          else
            Except.ok { upcoming := rest, current := some line,
                        pastChroms := old.chrom :: r.pastChroms }

/-- The zipper configuration carried by `RefinedBedZipperIter`. -/
structure ZipCfg where
  alignment : Int
  intervalLength : Int
  defaultValue : ℚ
deriving DecidableEq, Repr

/-- One output row (`ZippedBedGraphLine`). -/
structure ZippedLine where
  chrom : String
  start : Int
  endEx : Int
  values : List ℚ
deriving DecidableEq, Repr

/-- The chromosomes of all current records (the Rust code collects them
into a `HashSet`, whose deduplication does not change the minimum). -/
def currentChroms (rs : List BedReserve) : List String :=
  rs.filterMap fun r => r.current.map fun line => line.chrom

/-- The starts of all current records lying on chromosome `mc`. -/
def startsOn (mc : String) (rs : List BedReserve) : List Int :=
  rs.filterMap fun r =>
    r.current.bind fun line => if line.chrom = mc then some line.start else none

/-- Minimum of a list, `none` when empty (`Iterator::min`). -/
def listMin? {α : Type} [LinearOrder α] : List α → Option α
  | [] => none
  | a :: as =>
    match listMin? as with
    | none => some a
    | some m => some (min a m)

/-- Prepends one emitted value and one updated reserve to the result of
the remaining reserves, propagating the first failure (the left-to-right
evaluation of `iter_mut().map(..).collect()`). -/
def consOk (v : ℚ) (r : BedReserve) :
    Except String (List ℚ × List BedReserve) →
      Except String (List ℚ × List BedReserve)
  | Except.error m => Except.error m
  | Except.ok (vs, rs) => Except.ok (v :: vs, r :: rs)

/-- The value-collection pass of `RefinedBedZipperIter::next`: every
reserve whose current record sits exactly at `(mc, ms)` contributes its
score (or the default when the score is absent) and advances — a failing
advance aborts the pass — and every other reserve contributes the
default. -/
def stepValues (alignment intervalLength : Int) (dflt : ℚ) (mc : String) (ms : Int) :
    List BedReserve → Except String (List ℚ × List BedReserve)
  | [] => Except.ok ([], [])
  | r :: rs =>
    match r.current with
    | none => consOk dflt r (stepValues alignment intervalLength dflt mc ms rs)
    | some line =>
      if line.chrom = mc ∧ line.start = ms then
        match r.advance alignment intervalLength with
        | Except.error m => Except.error m
        | Except.ok r2 =>
          consOk (line.score.getD dflt) r2
            (stepValues alignment intervalLength dflt mc ms rs)
      else consOk dflt r (stepValues alignment intervalLength dflt mc ms rs)

/-- Outcome of one `next` call: all sources exhausted, a row emitted with
the updated reserves, or a panic raised by the `.expect` around a failing
`advance`. -/
inductive StepResult where
  | exhausted : StepResult
  | emit : ZippedLine → List BedReserve → StepResult
  | panicked : String → StepResult
deriving DecidableEq, Repr

/-- Method `RefinedBedZipperIter::next`: pick the lexicographically smallest
current chromosome, the smallest current start on it, collect one value
per source and emit the row `(chrom, start, start + interval_length)`. -/
def step (cfg : ZipCfg) (rs : List BedReserve) : StepResult :=
  match chromMin? (currentChroms rs) with
  | none => StepResult.exhausted
  | some mc =>
    let ms := (listMin? (startsOn mc rs)).getD 0
    match stepValues cfg.alignment cfg.intervalLength cfg.defaultValue mc ms rs with
    | Except.error m => StepResult.panicked m
    | Except.ok (vs, rs2) => StepResult.emit ⟨mc, ms, ms + cfg.intervalLength, vs⟩ rs2

/-- Outcome of draining the iterator: all rows when it terminated, the
rows written before a panic, or the rows produced before fuel ran out
(fuel only makes the recursion structural; every claim supplies enough). -/
inductive RunResult where
  | done : List ZippedLine → RunResult
  | panicked : List ZippedLine → String → RunResult
  | fuelOut : List ZippedLine → RunResult
deriving DecidableEq, Repr

/-- Driving the iterator to completion, collecting the emitted rows. -/
def run : Nat → ZipCfg → List BedReserve → RunResult
  | 0, _, _ => RunResult.fuelOut []
  | fuel + 1, cfg, rs =>
    match step cfg rs with
    | StepResult.exhausted => RunResult.done []
    | StepResult.panicked m => RunResult.panicked [] m
    | StepResult.emit row rs2 =>
      match run fuel cfg rs2 with
      | RunResult.done rows => RunResult.done (row :: rows)
      | RunResult.panicked rows m => RunResult.panicked (row :: rows) m
      | RunResult.fuelOut rows => RunResult.fuelOut (row :: rows)

/-- Methods `RefinedBedZipper::try_to_iter` and `RefinedBedZipperIter::new`: builds
one reserve per source (reading each source's first record unvalidated)
and rejects a negative alignment or a non-positive interval length with an
error value. -/
def tryToIter (sources : List (List BedRecord)) (alignment intervalLength : Int)
    (dflt : ℚ) : Except String (ZipCfg × List BedReserve) :=
  if alignment < 0 then
    Except.error ("alignment cannot be negative, received " ++ toString alignment)
  else if intervalLength ≤ 0 then
    Except.error ("interval_legnth must be positive, received " ++ toString intervalLength)
  else
    Except.ok (⟨alignment, intervalLength, dflt⟩, sources.map BedReserve.new)

/-- Method `RefinedBedZipper::write_to_file`: iterate and write each emitted row
(the written file is modelled as the list of rows inside the run
outcome). -/
def writeToFile (fuel : Nat) (sources : List (List BedRecord))
    (alignment intervalLength : Int) (dflt : ℚ) : Except String RunResult :=
  match tryToIter sources alignment intervalLength dflt with
  | Except.error e => Except.error e
  | Except.ok (cfg, rs) => Except.ok (run fuel cfg rs)

lemma charListLt_irrefl : ∀ a : List Char, charListLt a a = false := by
  intro a
  induction a with
  | nil => rfl
  | cons x xs ih => simp only [charListLt, if_neg (by omega : ¬x.toNat < x.toNat)]; exact ih

lemma charListLt_asymm : ∀ a b : List Char,
    charListLt a b = true → charListLt b a = false := by
  intro a
  induction a with
  | nil =>
    intro b h
    cases b with
    | nil => exact rfl
    | cons y ys => rfl
  | cons x xs ih =>
    intro b h
    cases b with
    | nil => simp [charListLt] at h
    | cons y ys =>
      simp only [charListLt] at h ⊢
      split_ifs at h ⊢ with h1 h2 h3 h4 <;> first | rfl | omega | exact ih ys h | simp_all

lemma charListLt_le_trans : ∀ a b c : List Char,
    charListLt b a = false → charListLt c b = false → charListLt c a = false := by
  intro a
  induction a with
  | nil =>
    intro b c _ _
    cases c with
    | nil => rfl
    | cons z zs => rfl
  | cons x xs ih =>
    intro b c h1 h2
    cases b with
    | nil => simp [charListLt] at h1
    | cons y ys =>
      cases c with
      | nil => simp [charListLt] at h2
      | cons z zs =>
        simp only [charListLt] at h1 h2 ⊢
        split_ifs at h1 h2 ⊢ with ha hb hc hd he hf <;>
          first | rfl | omega | exact ih ys zs h1 h2 | simp_all

lemma chromLt_irrefl (a : String) : chromLt a a = false := charListLt_irrefl a.data

lemma chromLt_asymm {a b : String} (h : chromLt a b = true) : chromLt b a = false :=
  charListLt_asymm a.data b.data h

lemma chromLt_le_trans {a b c : String} (h1 : chromLt b a = false)
    (h2 : chromLt c b = false) : chromLt c a = false :=
  charListLt_le_trans a.data b.data c.data h1 h2

lemma chromMin?_eq_none : ∀ l : List String, chromMin? l = none ↔ l = [] := by
  intro l
  cases l with
  | nil => simp [chromMin?]
  | cons a as =>
    simp only [chromMin?]
    cases chromMin? as <;> simp

lemma chromMin?_mem : ∀ (l : List String) (m : String), chromMin? l = some m → m ∈ l := by
  intro l
  induction l with
  | nil => intro m h; simp [chromMin?] at h
  | cons a as ih =>
    intro m h
    cases hm : chromMin? as with
    | none =>
      simp only [chromMin?, hm, Option.some.injEq] at h
      subst h; exact List.mem_cons_self _ _
    | some m0 =>
      simp only [chromMin?, hm, Option.some.injEq] at h
      split_ifs at h with hlt
      · exact List.mem_cons_of_mem _ (h ▸ ih m0 hm)
      · subst h; exact List.mem_cons_self _ _

lemma chromMin?_not_lt : ∀ (l : List String) (m : String), chromMin? l = some m →
    ∀ c ∈ l, chromLt c m = false := by
  intro l
  induction l with
  | nil => intro m h; simp [chromMin?] at h
  | cons a as ih =>
    intro m h c hc
    cases hm : chromMin? as with
    | none =>
      have has : as = [] := (chromMin?_eq_none as).mp hm
      subst has
      simp only [chromMin?, Option.some.injEq] at h
      subst h
      rcases List.mem_cons.mp hc with hc | hc
      · subst hc; exact chromLt_irrefl c
      · simp at hc
    | some m0 =>
      simp only [chromMin?, hm, Option.some.injEq] at h
      split_ifs at h with hlt
      · subst h
        rcases List.mem_cons.mp hc with hc | hc
        · subst hc; exact chromLt_asymm hlt
        · exact ih m0 hm c hc
      · subst h
        rcases List.mem_cons.mp hc with hc | hc
        · subst hc; exact chromLt_irrefl c
        · have hle : chromLt m0 a = false := by simpa using hlt
          exact chromLt_le_trans hle (ih m0 hm c hc)

lemma listMin?_eq_none {α : Type} [LinearOrder α] :
    ∀ l : List α, listMin? l = none ↔ l = [] := by
  intro l
  cases l with
  | nil => simp [listMin?]
  | cons a as =>
    simp only [listMin?]
    cases listMin? as <;> simp

lemma listMin?_mem {α : Type} [LinearOrder α] :
    ∀ (l : List α) (a : α), listMin? l = some a → a ∈ l := by
  intro l
  induction l with
  | nil => intro a h; simp [listMin?] at h
  | cons e t ih =>
    intro a h
    cases hm : listMin? t with
    | none =>
      simp only [listMin?, hm, Option.some.injEq] at h
      subst h; exact List.mem_cons_self _ _
    | some m =>
      simp only [listMin?, hm, Option.some.injEq] at h
      rcases min_choice e m with hc | hc
      · rw [hc] at h; subst h; exact List.mem_cons_self _ _
      · rw [hc] at h; subst h; exact List.mem_cons_of_mem _ (ih m hm)

lemma listMin?_le {α : Type} [LinearOrder α] :
    ∀ (l : List α) (a : α), listMin? l = some a → ∀ b ∈ l, a ≤ b := by
  intro l
  induction l with
  | nil => intro a h; simp [listMin?] at h
  | cons e t ih =>
    intro a h b hb
    cases hm : listMin? t with
    | none =>
      have ht : t = [] := (listMin?_eq_none t).mp hm
      subst ht
      simp only [listMin?, Option.some.injEq] at h
      subst h
      rcases List.mem_cons.mp hb with hb | hb
      · subst hb; exact le_refl b
      · simp at hb
    | some m =>
      simp only [listMin?, hm, Option.some.injEq] at h
      subst h
      rcases List.mem_cons.mp hb with hb | hb
      · subst hb; exact min_le_left _ _
      · exact le_trans (min_le_right _ _) (ih m hm b hb)

/-- The value a single source contributes to the row at `(mc, ms)`: its
current record's score (default when the score is absent) when that record
sits exactly at `(mc, ms)`, and the default otherwise. -/
def expectedValue (dflt : ℚ) (mc : String) (ms : Int) (r : BedReserve) : ℚ :=
  match r.current with
  | none => dflt
  | some line =>
    if line.chrom = mc ∧ line.start = ms then line.score.getD dflt else dflt

lemma consOk_ok {v : ℚ} {r : BedReserve}
    {res : Except String (List ℚ × List BedReserve)} {vs : List ℚ}
    {rs2 : List BedReserve} :
    consOk v r res = Except.ok (vs, rs2) ↔
      ∃ vs0 rs0, res = Except.ok (vs0, rs0) ∧ vs = v :: vs0 ∧ rs2 = r :: rs0 := by
  cases res with
  | error m => simp [consOk]
  | ok p =>
    obtain ⟨vs0, rs0⟩ := p
    simp only [consOk, Except.ok.injEq, Prod.mk.injEq]
    aesop

lemma stepValues_ok_spec : ∀ (rs : List BedReserve) (al il : Int) (dflt : ℚ)
    (mc : String) (ms : Int) (vs : List ℚ) (rs2 : List BedReserve),
    stepValues al il dflt mc ms rs = Except.ok (vs, rs2) →
    vs.length = rs.length ∧
      ∀ (i : Nat) (h1 : i < rs.length) (h2 : i < vs.length),
        vs.get ⟨i, h2⟩ = expectedValue dflt mc ms (rs.get ⟨i, h1⟩) := by
  intro rs
  induction rs with
  | nil =>
    intro al il dflt mc ms vs rs2 h
    simp only [stepValues, Except.ok.injEq, Prod.mk.injEq] at h
    obtain ⟨h1, _⟩ := h
    subst h1
    exact ⟨rfl, fun i hi _ => absurd hi (by simp)⟩
  | cons r rs ih =>
    intro al il dflt mc ms vs rs2 h
    cases hc : r.current with
    | none =>
      simp only [stepValues, hc] at h
      obtain ⟨vs0, rs0, hrec, hvs, hrs⟩ := consOk_ok.mp h
      subst hvs; subst hrs
      obtain ⟨hlen, hidx⟩ := ih al il dflt mc ms vs0 rs0 hrec
      refine ⟨by simp [hlen], ?_⟩
      intro i hi1 hi2
      cases i with
      | zero => simp [expectedValue, hc]
      | succ n =>
        simp only [List.length_cons, Nat.succ_lt_succ_iff] at hi1 hi2
        simpa using hidx n hi1 hi2
    | some line =>
      by_cases hm : line.chrom = mc ∧ line.start = ms
      · cases hadv : r.advance al il with
        | error m =>
          simp only [stepValues, hc, if_pos hm, hadv] at h
          exact Except.noConfusion h
        | ok r2 =>
          simp only [stepValues, hc, if_pos hm, hadv] at h
          obtain ⟨vs0, rs0, hrec, hvs, hrs⟩ := consOk_ok.mp h
          subst hvs; subst hrs
          obtain ⟨hlen, hidx⟩ := ih al il dflt mc ms vs0 rs0 hrec
          refine ⟨by simp [hlen], ?_⟩
          intro i hi1 hi2
          cases i with
          | zero => simp [expectedValue, hc, hm]
          | succ n =>
            simp only [List.length_cons, Nat.succ_lt_succ_iff] at hi1 hi2
            simpa using hidx n hi1 hi2
      · simp only [stepValues, hc, if_neg hm] at h
        obtain ⟨vs0, rs0, hrec, hvs, hrs⟩ := consOk_ok.mp h
        subst hvs; subst hrs
        obtain ⟨hlen, hidx⟩ := ih al il dflt mc ms vs0 rs0 hrec
        refine ⟨by simp [hlen], ?_⟩
        intro i hi1 hi2
        cases i with
        | zero => simp [expectedValue, hc, hm]
        | succ n =>
          simp only [List.length_cons, Nat.succ_lt_succ_iff] at hi1 hi2
          simpa using hidx n hi1 hi2

lemma mem_currentChroms {rs : List BedReserve} {c : String} :
    c ∈ currentChroms rs ↔
      ∃ r ∈ rs, ∃ line, r.current = some line ∧ line.chrom = c := by
  unfold currentChroms
  rw [List.mem_filterMap]
  constructor
  · rintro ⟨r, hr, hmap⟩
    rcases Option.map_eq_some'.mp hmap with ⟨line, hline, hchrom⟩
    exact ⟨r, hr, line, hline, hchrom⟩
  · rintro ⟨r, hr, line, hline, hchrom⟩
    exact ⟨r, hr, by rw [hline]; simpa using hchrom⟩

lemma mem_startsOn_of {rs : List BedReserve} {r : BedReserve} {line : BedRecord}
    {mc : String} (hr : r ∈ rs) (hc : r.current = some line)
    (hm : line.chrom = mc) : line.start ∈ startsOn mc rs := by
  unfold startsOn
  rw [List.mem_filterMap]
  refine ⟨r, hr, ?_⟩
  rw [hc]
  simp [Option.bind, hm]

/-- C10: constructing the zipper over an empty list of sources with a
non-negative alignment and a positive interval length succeeds, the first
`next` call immediately reports exhaustion without emitting a row, and
`write_to_file` returns success having written no rows at all. -/
theorem zipper_empty_sources_ok (alignment intervalLength : Int) (dflt : ℚ)
    (fuel : Nat) (h1 : 0 ≤ alignment) (h2 : 0 < intervalLength) :
    tryToIter [] alignment intervalLength dflt =
      Except.ok (⟨alignment, intervalLength, dflt⟩, []) ∧
    step ⟨alignment, intervalLength, dflt⟩ [] = StepResult.exhausted ∧
    writeToFile (fuel + 1) [] alignment intervalLength dflt =
      Except.ok (RunResult.done []) := by
  have ht : tryToIter [] alignment intervalLength dflt =
      Except.ok (⟨alignment, intervalLength, dflt⟩, []) := by
    unfold tryToIter
    rw [if_neg (by omega), if_neg (by omega)]
    rfl
  have hs : step ⟨alignment, intervalLength, dflt⟩ [] = StepResult.exhausted := rfl
  refine ⟨ht, hs, ?_⟩
  unfold writeToFile
  rw [ht]
  simp [run, hs]

/-- C10 witness: the empty-source zipper at `alignment = 0`,
`interval_length = 50`. -/
theorem zipper_empty_sources_ok_witness :
    tryToIter [] 0 50 0 = Except.ok (⟨0, 50, 0⟩, []) ∧
    step ⟨0, 50, 0⟩ [] = StepResult.exhausted ∧
    writeToFile 1 [] 0 50 0 = Except.ok (RunResult.done []) :=
  zipper_empty_sources_ok 0 50 0 0 (by decide) (by decide)

/-- C1: whenever a step of the zipper emits a row, the row's chromosome is
the lexicographically smallest chromosome among the sources' current
records, its start the smallest current start on that chromosome, its
exclusive end `start + interval_length`, and position `i` of its value
vector carries source `i`'s current value exactly when that source's
current record sits at `(chrom, start)` (the default when its score is
absent) and the configured default otherwise; and on the concrete two
sources `A = [(chr1, 0, 50, 10)]`, `B = [(chr1, 50, 100, 5)]` with
`interval_length = 50`, `alignment = 0`, `default_value = 0` the zipper
emits exactly `(chr1, 0, 50, [10, 0])` then `(chr1, 50, 100, [0, 5])`. -/
theorem zipper_step_spec :
    (∀ (cfg : ZipCfg) (rs : List BedReserve) (row : ZippedLine)
      (rs2 : List BedReserve), step cfg rs = StepResult.emit row rs2 →
      (row.chrom ∈ currentChroms rs ∧
        ∀ c ∈ currentChroms rs, chromLt c row.chrom = false) ∧
      (row.start ∈ startsOn row.chrom rs ∧
        ∀ s ∈ startsOn row.chrom rs, row.start ≤ s) ∧
      row.endEx = row.start + cfg.intervalLength ∧
      row.values.length = rs.length ∧
      ∀ (i : Nat) (h1 : i < rs.length) (h2 : i < row.values.length),
        row.values.get ⟨i, h2⟩ =
          expectedValue cfg.defaultValue row.chrom row.start (rs.get ⟨i, h1⟩)) ∧
    run 3 ⟨0, 50, 0⟩
        [BedReserve.new [⟨"chr1", 0, 50, some 10⟩],
         BedReserve.new [⟨"chr1", 50, 100, some 5⟩]] =
      RunResult.done [⟨"chr1", 0, 50, [10, 0]⟩, ⟨"chr1", 50, 100, [0, 5]⟩] := by
  constructor
  · intro cfg rs row rs2 h
    cases hmc : chromMin? (currentChroms rs) with
    | none =>
      simp only [step, hmc] at h
      exact StepResult.noConfusion h
    | some mc =>
      simp only [step, hmc] at h
      cases hsv : stepValues cfg.alignment cfg.intervalLength cfg.defaultValue mc
          ((listMin? (startsOn mc rs)).getD 0) rs with
      | error m => rw [hsv] at h; exact StepResult.noConfusion h
      | ok p =>
        obtain ⟨vs, rs3⟩ := p
        rw [hsv] at h
        have hrow : row = ⟨mc, (listMin? (startsOn mc rs)).getD 0,
            (listMin? (startsOn mc rs)).getD 0 + cfg.intervalLength, vs⟩ := by
          cases h; rfl
        subst hrow
        obtain ⟨r0, hr0, line0, hline0, hchrom0⟩ :=
          mem_currentChroms.mp (chromMin?_mem _ _ hmc)
        have hms0 : line0.start ∈ startsOn mc rs := mem_startsOn_of hr0 hline0 hchrom0
        cases hsm : listMin? (startsOn mc rs) with
        | none =>
          have : startsOn mc rs = [] := (listMin?_eq_none _).mp hsm
          rw [this] at hms0
          simp at hms0
        | some ms =>
          obtain ⟨hlen, hidx⟩ := stepValues_ok_spec rs cfg.alignment
            cfg.intervalLength cfg.defaultValue mc
            ((listMin? (startsOn mc rs)).getD 0) vs rs3 hsv
          simp only [Option.getD_some]
          simp only [hsm, Option.getD_some] at hidx
          refine ⟨⟨chromMin?_mem _ _ hmc, chromMin?_not_lt _ _ hmc⟩,
            ⟨listMin?_mem _ _ hsm, listMin?_le _ _ hsm⟩, by trivial, hlen, hidx⟩
  · decide

/-- C1 witness: the step characterization applied to the first step of
the concrete scenario. -/
theorem zipper_step_spec_witness :
    (⟨"chr1", 0, 50, [10, 0]⟩ : ZippedLine).endEx =
      (⟨"chr1", 0, 50, [10, 0]⟩ : ZippedLine).start + (50 : Int) :=
  (zipper_step_spec.1 ⟨0, 50, 0⟩
    [BedReserve.new [⟨"chr1", 0, 50, some 10⟩],
     BedReserve.new [⟨"chr1", 50, 100, some 5⟩]]
    ⟨"chr1", 0, 50, [10, 0]⟩
    [⟨[], none, ["chr1"]⟩, BedReserve.new [⟨"chr1", 50, 100, some 5⟩]]
    (by decide)).2.2.1

/-- The reserve's current record sits exactly at `(mc, ms)`. -/
def matchesAt (mc : String) (ms : Int) (r : BedReserve) : Prop :=
  ∃ line, r.current = some line ∧ line.chrom = mc ∧ line.start = ms

/-- A failing `advance` of the first matching reserve makes the whole
value-collection pass fail with that message, provided every earlier
matching reserve advances successfully. -/
lemma stepValues_error_of_first_fail : ∀ (pre post : List BedReserve)
    (r : BedReserve) (al il : Int) (dflt : ℚ) (mc : String) (ms : Int) (m : String),
    (∀ q ∈ pre, matchesAt mc ms q → ∃ q2, q.advance al il = Except.ok q2) →
    matchesAt mc ms r →
    r.advance al il = Except.error m →
    stepValues al il dflt mc ms (pre ++ r :: post) = Except.error m := by
  intro pre
  induction pre with
  | nil =>
    intro post r al il dflt mc ms m _ hmatch herr
    obtain ⟨line, hc, h1, h2⟩ := hmatch
    simp only [List.nil_append, stepValues, hc, if_pos (And.intro h1 h2), herr]
  | cons q pre ih =>
    intro post r al il dflt mc ms m hpre hmatch herr
    have hrest := ih post r al il dflt mc ms m
      (fun q2 hq2 => hpre q2 (List.mem_cons_of_mem _ hq2)) hmatch herr
    simp only [List.cons_append, stepValues]
    cases hc : q.current with
    | none => simp only [hc, List.append_eq, hrest, consOk]
    | some lineq =>
      by_cases hm : lineq.chrom = mc ∧ lineq.start = ms
      · obtain ⟨q2, hq2⟩ := hpre q (List.mem_cons_self _ _) ⟨lineq, hc, hm.1, hm.2⟩
        simp only [hc, if_pos hm, hq2, List.append_eq, hrest, consOk]
      · simp only [hc, if_neg hm, List.append_eq, hrest, consOk]

/-- C4 (amended): a reserve whose next record violates interleaving,
record length, alignment or ordering makes `advance` return an error
value; the iterator's `next` unwraps that error with `.expect`, so when
the first matching reserve's `advance` fails, the whole merge aborts by
panicking with that message — no error value reaches the caller and no
row is emitted for the offending record. -/
theorem zipper_violation_panics :
    (∀ (r : BedReserve) (al il : Int) (line : BedRecord) (rest : List BedRecord),
      r.upcoming = line :: rest →
      (line.chrom ∈ r.pastChroms ∨ line.endEx - line.start ≠ il ∨
        line.start.tmod il ≠ al ∨
        (∃ old, r.current = some old ∧ old.chrom = line.chrom ∧
          line.start < old.endEx) ∨
        (∃ old, r.current = some old ∧ old.chrom ≠ line.chrom ∧
          chromLt line.chrom old.chrom = true)) →
      ∃ m, r.advance al il = Except.error m) ∧
    (∀ (cfg : ZipCfg) (pre post : List BedReserve) (r : BedReserve)
      (m : String) (mc : String),
      chromMin? (currentChroms (pre ++ r :: post)) = some mc →
      (∀ q ∈ pre,
        matchesAt mc ((listMin? (startsOn mc (pre ++ r :: post))).getD 0) q →
        ∃ q2, q.advance cfg.alignment cfg.intervalLength = Except.ok q2) →
      matchesAt mc ((listMin? (startsOn mc (pre ++ r :: post))).getD 0) r →
      r.advance cfg.alignment cfg.intervalLength = Except.error m →
      step cfg (pre ++ r :: post) = StepResult.panicked m) := by
  constructor
  · intro r al il line rest h hviol
    simp only [BedReserve.advance, h]
    by_cases h1 : line.chrom ∈ r.pastChroms
    · exact ⟨_, by rw [if_pos h1]⟩
    · rw [if_neg h1]
      by_cases h2 : line.endEx - line.start ≠ il
      · exact ⟨"", by rw [if_pos h2]⟩
      · rw [if_neg h2]
        by_cases h3 : line.start.tmod il ≠ al
        · exact ⟨"", by rw [if_pos h3]⟩
        · rw [if_neg h3]
          rcases hviol with hv | hv | hv | hv | hv
          · exact absurd hv h1
          · exact absurd hv h2
          · exact absurd hv h3
          · obtain ⟨old, hcur, hsame, hlt⟩ := hv
            refine ⟨"the intervals must be sorted in increasing order", ?_⟩
            simp only [hcur]
            rw [if_pos hsame, if_pos hlt]
          · obtain ⟨old, hcur, hne, hlt⟩ := hv
            refine ⟨"the chromosomes must be sorted in increasing order", ?_⟩
            simp only [hcur]
            rw [if_neg hne, if_pos hlt]
  · intro cfg pre post r m mc hmc hpre hmatch herr
    have hsv := stepValues_error_of_first_fail pre post r cfg.alignment
      cfg.intervalLength cfg.defaultValue mc
      ((listMin? (startsOn mc (pre ++ r :: post))).getD 0) m hpre hmatch herr
    simp only [step, hmc, hsv]

/-- C4 counterexample: with `interval_length = 50`, `alignment = 0` and a
single source whose second record starts before the first record's
exclusive end, the merge aborts by panicking (it does not return an error
value to the caller), refuting the claim that such a failure is an
error return and never a panic. -/
theorem zipper_violation_panics_counterexample :
    run 2 ⟨0, 50, 0⟩
        [BedReserve.new [⟨"chr1", 50, 100, some 1⟩, ⟨"chr1", 0, 50, some 2⟩]] =
      RunResult.panicked [] "the intervals must be sorted in increasing order" := by
  decide

/-- C4 witness: the panic propagation applied to the concrete ordering
violation. -/
theorem zipper_violation_panics_witness :
    step ⟨0, 50, 0⟩
        ([] ++ BedReserve.new [⟨"chr1", 50, 100, some 1⟩, ⟨"chr1", 0, 50, some 2⟩] :: []) =
      StepResult.panicked "the intervals must be sorted in increasing order" :=
  zipper_violation_panics.2 ⟨0, 50, 0⟩ [] []
    (BedReserve.new [⟨"chr1", 50, 100, some 1⟩, ⟨"chr1", 0, 50, some 2⟩])
    "the intervals must be sorted in increasing order" "chr1"
    (by decide)
    (fun q hq => absurd hq (List.not_mem_nil q))
    ⟨⟨"chr1", 50, 100, some 1⟩, rfl, rfl, by decide⟩
    rfl

/-- C5 (amended): every record read through a reserve's `advance` — that
is, every record after the first of each source — fails the merge (with an
error from `advance`, hence a panic of the iterator) unless its length
`end_exclusive - start` equals the configured interval length and
`start % interval_length` equals the configured alignment; the first
record of each source is read by `BedReserve::new` without any
validation. -/
theorem advance_validates_length_alignment (r : BedReserve) (al il : Int)
    (line : BedRecord) (rest : List BedRecord) (h : r.upcoming = line :: rest)
    (hviol : line.endEx - line.start ≠ il ∨ line.start.tmod il ≠ al) :
    ∃ m, r.advance al il = Except.error m := by
  simp only [BedReserve.advance, h]
  by_cases h1 : line.chrom ∈ r.pastChroms
  · exact ⟨_, by rw [if_pos h1]⟩
  · rw [if_neg h1]
    by_cases h2 : line.endEx - line.start ≠ il
    · exact ⟨"", by rw [if_pos h2]⟩
    · rw [if_neg h2]
      have h3 : line.start.tmod il ≠ al := by tauto
      exact ⟨"", by rw [if_pos h3]⟩

/-- C5 counterexample: a source whose only (hence first) record has
length `13 ≠ 50` and start `7` misaligned for `alignment = 0` is merged
without any error — the zipper emits a row for it and reports success,
refuting validation of the first record of a source. -/
theorem first_record_unvalidated_counterexample :
    ((20 : Int) - 7 ≠ 50 ∧ (7 : Int).tmod 50 ≠ 0) ∧
    run 2 ⟨0, 50, 0⟩ [BedReserve.new [⟨"chr1", 7, 20, some 3⟩]] =
      RunResult.done [⟨"chr1", 7, 57, [3]⟩] := by
  constructor <;> decide

/-- C5 witness: the validation applied to a second record of wrong
length. -/
theorem advance_validates_length_alignment_witness :
    ∃ m, (BedReserve.new
        [⟨"chr1", 0, 50, some 1⟩, ⟨"chr1", 60, 80, some 2⟩]).advance 0 50 =
      Except.error m :=
  advance_validates_length_alignment _ 0 50 ⟨"chr1", 60, 80, some 2⟩ [] rfl
    (by decide)

end Biostats
